import Mathlib

/-
Verification of the video-automation pipeline's core logic:
file pairing, Ken Burns zoom parameters, transition selection,
and audio/video filter-graph construction.

Shallow embedding conventions:
* external probes are modelled by passing the probed duration as input;
* Python floats are modelled as exact rationals;
* fallible Python code (exceptions) is modelled with Except;
* filter-graph strings are modelled as structured stage records that
  mirror the f-strings built by the source, label for label.
-/

namespace VidAuto

/-! ### Ken Burns renderer (src/ken_burns.py) -/

inductive PyError where
  | invalidDuration : PyError
  | zeroDivision : PyError
deriving DecidableEq

/-- Model of audio_utils.get_audio_duration: the probed value is an input;
the guard rejects durations at or below zero. -/
def get_audio_duration (probed : ℚ) : Except PyError ℚ :=
  if probed ≤ 0 then .error .invalidDuration else .ok probed

/-- Python int() applied to a float: truncation toward zero. -/
def pyInt (q : ℚ) : ℤ :=
  if 0 ≤ q then ⌊q⌋ else ⌈q⌉

/-- Python division, which raises ZeroDivisionError on a zero divisor. -/
def pyDiv (a b : ℚ) : Except PyError ℚ :=
  if b = 0 then .error .zeroDivision else .ok (a / b)

/-- The numeric front end of create_ken_burns_video: frame count
total_frames = int(fps * duration) and per-frame decrement
zoom_increment = (start_zoom - end_zoom) / total_frames. -/
def kenBurnsParams (probedDuration : ℚ) (fps : ℕ) (startZoom endZoom : ℚ) :
    Except PyError (ℤ × ℚ) :=
  match get_audio_duration probedDuration with
  | .error e => .error e
  | .ok duration =>
    let total_frames : ℤ := pyInt ((fps : ℚ) * duration)
    match pyDiv (startZoom - endZoom) (total_frames : ℚ) with
    | .error e => .error e
    | .ok zoom_increment => .ok (total_frames, zoom_increment)

/-- Semantics of the zoompan z expression
if(eq(on,1),start_zoom,max(zoom-increment,end_zoom)) at output frame n,
where the zoom variable holds the previous frame's value and starts at 1. -/
def zoomExpr (startZoom endZoom inc : ℚ) : ℕ → ℚ
  | 0 => 1
  | n + 1 => if n = 0 then startZoom else max (zoomExpr startZoom endZoom inc n - inc) endZoom

/-! ### Transition selection (src/transitions.py) -/

def TRANSITION_TYPES : List String :=
  ["fade", "dissolve", "pixelize", "slideleft", "slideright",
   "slideup", "slidedown", "smoothleft", "smoothright", "smoothup",
   "smoothdown", "fadeblack", "fadewhite", "circleopen", "wipeleft",
   "wiperight"]

inductive TransError where
  | noTransitions : TransError
deriving DecidableEq

/-- Model of get_random_transition: the random draw is modelled by the
index k into the filtered list (random.choice picks some element). -/
def get_random_transition (exclude : List String) (k : ℕ) : Except TransError String :=
  let available := TRANSITION_TYPES.filter (fun t => !exclude.contains t)
  if available.isEmpty then .error .noTransitions
  else .ok (available.getD (k % available.length) "")

/-! ### Audio filter graph (src/video_concat.py, build_audio_filters)

Each element of the Python string list is modelled as a structured stage
record keeping the input labels, the operation with its numeric
parameters, and the output labels of the corresponding filter string. -/

inductive ALabel where
  | raw (i : ℕ) : ALabel
  | a (i : ℤ) : ALabel
  | sil (i : ℕ) : ALabel
  | finalAudio : ALabel
deriving DecidableEq

inductive AOp where
  | concat (n : ℕ) : AOp
  | silenceSrc (d : ℚ) : AOp
  | acrossfade (d : ℚ) : AOp
  | labelRef (s : String) : AOp
deriving DecidableEq

structure AStage where
  inputs : List ALabel
  op : AOp
  outputs : List ALabel
deriving DecidableEq

/-- Model of build_audio_filters. Stage by stage:
* none mode: one concat stage over all raw audio inputs;
* gap mode: one aevalsrc silence stage per boundary, then one concat
  stage whose inputs mirror the joined string
  of raw label followed by the matching silence label when one exists;
* crossfade mode: the chained acrossfade stages, then the trailing
  list element whose text is the last chain label followed by the
  bare word final_audio (an input label and a filter name, no output). -/
def build_audio_filters (num_videos : ℕ) (audio_transition_mode : String)
    (transition_duration audio_gap_duration : ℚ) : Except String (List AStage) :=
  if audio_transition_mode = "none" then
    .ok [⟨(List.range num_videos).map ALabel.raw, .concat num_videos, [.finalAudio]⟩]
  else if audio_transition_mode = "gap" then
    let num_segments := num_videos + (num_videos - 1)
    let silenceStages := (List.range (num_videos - 1)).map
      (fun i => (⟨[], .silenceSrc audio_gap_duration, [.sil i]⟩ : AStage))
    let concatInputs := (List.range num_videos).flatMap
      (fun i => ALabel.raw i :: (if i < num_videos - 1 then [ALabel.sil i] else []))
    .ok (silenceStages ++ [⟨concatInputs, .concat num_segments, [.finalAudio]⟩])
  else if audio_transition_mode = "crossfade" then
    let fadeStages := (List.range (num_videos - 1)).map (fun (i : ℕ) =>
      if i = 0 then
        (⟨[.raw 0, .raw 1], .acrossfade transition_duration, [.a 0]⟩ : AStage)
      else
        (⟨[.a ((i : ℤ) - 1), .raw ((i : ℕ) + 1)], .acrossfade transition_duration,
          [.a (i : ℤ)]⟩ : AStage))
    .ok (fadeStages ++ [⟨[.a ((num_videos : ℤ) - 2)], .labelRef "final_audio", []⟩])
  else
    .error ("Invalid audio_transition_mode: " ++ audio_transition_mode)

/-- Spec-side description of the gap-mode concat inputs: the raw inputs
interleaved with the silence labels, ending on the last raw input. -/
def gapInterleave (n : ℕ) : List ALabel :=
  (List.range (n - 1)).flatMap (fun i => [ALabel.raw i, ALabel.sil i]) ++ [ALabel.raw (n - 1)]

/-- Spec-side description of crossfade stage i: it consumes the previous
stage's output label (raw input 0 for the first stage) together with raw
input i+1 and produces chain label i. -/
def acfSpecStage (d : ℚ) (i : ℕ) : AStage :=
  ⟨[if i = 0 then ALabel.raw 0 else ALabel.a ((i : ℤ) - 1), ALabel.raw (i + 1)],
   .acrossfade d, [.a (i : ℤ)]⟩

/-! ### Video filter graph (src/video_concat.py,
concatenate_videos_with_transitions) -/

inductive VLabel where
  | raw (i : ℕ) : VLabel
  | v (i : ℕ) : VLabel
deriving DecidableEq

structure VStage where
  inA : VLabel
  inB : VLabel
  trans : String
  duration : ℚ
  offset : ℚ
  out : VLabel
deriving DecidableEq

def defaultVStage : VStage :=
  ⟨.raw 0, .raw 0, "", 0, 0, .raw 0⟩

/-- The xfade chain loop: at boundary i the stage consumes the previous
chain label (raw input 0 first) and raw input i+1, with
offset = cumulative_duration - transition_duration - 0.05, after which
cumulative_duration increases by the next clip's duration minus the
transition duration.  picks i is the transition chosen at boundary i;
rest holds durations[i+1:]. -/
def videoChainAux (picks : ℕ → String) (t : ℚ) : ℕ → ℚ → List ℚ → List VStage
  | _, _, [] => []
  | i, cum, d :: rest =>
    { inA := if i = 0 then .raw 0 else .v (i - 1)
      inB := .raw (i + 1)
      trans := picks i
      duration := t
      offset := cum - t - 1/20
      out := .v i } :: videoChainAux picks t (i + 1) (cum + d - t) rest

/-- Video part of concatenate_videos_with_transitions, over the probed
clip durations; the per-boundary random transition drawing is modelled
by the picks function. -/
def concatVideoGraph (picks : ℕ → String) (t : ℚ) (durations : List ℚ) :
    Except String (List VStage) :=
  if durations.length < 2 then
    .error "At least 2 videos required for concatenation with transitions"
  else
    match durations with
    | [] => .error "At least 2 videos required for concatenation with transitions"
    | d0 :: rest => .ok (videoChainAux picks t 0 d0 rest)

/-- Spec-side cumulative duration before boundary i: clip 0's duration,
then for each completed boundary the next clip's duration minus the
transition duration is added. -/
def cumDur (durations : List ℚ) (t : ℚ) : ℕ → ℚ
  | 0 => durations.getD 0 0
  | i + 1 => cumDur durations t i + durations.getD (i + 1) 0 - t

/-! ### File pairing (src/pipeline.py, discover_and_pair_files)

A directory is modelled as the list of its filenames in iteration
order.  The two regular expressions are translated into an explicit
matcher over the character list of the filename. -/

/-- Case folding used to model re.IGNORECASE: ASCII upper to lower. -/
def lcChar (c : Char) : Char :=
  if 65 ≤ c.toNat ∧ c.toNat ≤ 90 then Char.ofNat (c.toNat + 32) else c

/-- Consume the fixed lowercase pattern at the front of a name,
case-insensitively; return the remaining characters on success. -/
def eatPat : List Char → List Char → Option (List Char)
  | [], rest => some rest
  | _ :: _, [] => none
  | p :: ps, c :: cs => if lcChar c = p then eatPat ps cs else none

/-- Numeric value of a run of decimal digit characters,
as Python int() reads it (leading zeros allowed). -/
def digitsVal (cs : List Char) : ℕ :=
  cs.foldl (fun acc c => 10 * acc + (c.toNat - 48)) 0

/-- Model of matching a filename against role_(digits).(ext) with the
given allowed extensions, IGNORECASE, returning the numeric index.
The pattern is anchored: the whole name must be consumed. -/
def matchIndexed (role : List Char) (exts : List String) (name : String) : Option ℕ :=
  match eatPat (role ++ ['_']) name.data with
  | none => none
  | some rest =>
    let ds := rest.takeWhile Char.isDigit
    let tail := rest.dropWhile Char.isDigit
    if ds.isEmpty then none
    else
      match tail with
      | '.' :: extChars =>
        if exts.contains (String.mk (extChars.map lcChar)) then some (digitsVal ds)
        else none
      | _ => none

def imageIndex (name : String) : Option ℕ :=
  matchIndexed ['i', 'm', 'a', 'g', 'e'] ["jpg", "jpeg", "png", "heic"] name

def audioIndex (name : String) : Option ℕ :=
  matchIndexed ['a', 'u', 'd', 'i', 'o'] ["mp3", "wav", "m4a", "ogg", "aac"] name

/-- Python dict assignment m[i] = v: replace in place or append. -/
def upsert : List (ℕ × String) → ℕ → String → List (ℕ × String)
  | [], i, v => [(i, v)]
  | (j, w) :: rest, i, v =>
    if j = i then (i, v) :: rest else (j, w) :: upsert rest i v

/-- The discovery loop: files whose names match are entered into the
index-keyed dictionary, later files overwriting earlier ones. -/
def buildMap (parse : String → Option ℕ) (names : List String) : List (ℕ × String) :=
  names.foldl (fun m n => match parse n with
    | some i => upsert m i n
    | none => m) []

def mapKeys (m : List (ℕ × String)) : List ℕ :=
  m.map Prod.fst

def findVal : List (ℕ × String) → ℕ → Option String
  | [], _ => none
  | (j, w) :: rest, i => if j = i then some w else findVal rest i

/-- Stable insertion by a natural-number key (model of Python sorted /
list.sort, which are stable). -/
def insKey {α : Type} (k : α → ℕ) (x : α) : List α → List α
  | [] => [x]
  | y :: ys => if k x ≤ k y then x :: y :: ys else y :: insKey k x ys

def sortKey {α : Type} (k : α → ℕ) : List α → List α
  | [] => []
  | x :: xs => insKey k x (sortKey k xs)

/-- Decimal digit characters of n, most significant first (empty for 0);
the first argument is structural fuel, always at least n at call sites. -/
def natCharsGo : ℕ → ℕ → List Char
  | _, 0 => []
  | 0, _ + 1 => []
  | fuel + 1, n + 1 =>
    natCharsGo fuel ((n + 1) / 10) ++ [Char.ofNat (48 + (n + 1) % 10)]

/-- Python format {:03d}: decimal digits zero-padded to width 3. -/
def pad3 (n : ℕ) : String :=
  let s := natCharsGo n n
  String.mk (List.replicate (3 - s.length) '0' ++ s)

/-- The canonical image filename for index i, as in the naming
convention image_001.jpg. -/
def imgName (i : ℕ) : String :=
  "image_" ++ pad3 i ++ ".jpg"

/-- The canonical audio filename for index i, as in audio_001.mp3. -/
def audName (i : ℕ) : String :=
  "audio_" ++ pad3 i ++ ".mp3"

inductive PairError where
  | noPairs : PairError
  | incomplete (missing : List String) : PairError
deriving DecidableEq

/-- The verification loop over the sorted union of indices: an index on
both sides yields a pair, an image-only index records the expected
audio name, any other index records the expected image name. -/
def pairLoop (imgs auds : List (ℕ × String)) :
    List ℕ → List (String × String × ℕ) × List String
  | [] => ([], [])
  | i :: rest =>
    let acc := pairLoop imgs auds rest
    match findVal imgs i, findVal auds i with
    | some im, some au => ((im, au, i) :: acc.1, acc.2)
    | some _, none => (acc.1, ("audio_" ++ pad3 i) :: acc.2)
    | none, _ => (acc.1, ("image_" ++ pad3 i) :: acc.2)

/-- Model of discover_and_pair_files over directory listings. -/
def discover_and_pair_files (imgNames audNames : List String) :
    Except PairError (List (String × String × ℕ)) :=
  let images := buildMap imageIndex imgNames
  let audio_files := buildMap audioIndex audNames
  let all_indices := sortKey id ((mapKeys images ++ mapKeys audio_files).dedup)
  if all_indices.isEmpty then .error .noPairs
  else
    let pm := pairLoop images audio_files all_indices
    if pm.2.isEmpty then .ok (sortKey (fun p => p.2.2) pm.1)
    else .error (.incomplete pm.2)

/-! ### Result collection (src/pipeline.py, run_pipeline) -/

/-- Model of the fan-in step: rendered clips tagged with their pair
index arrive in completion order, are sorted ascending by index, and
the clip paths are handed to the concatenator. -/
def collectClips (results : List (String × ℕ)) : List String :=
  (sortKey (fun r => r.2) results).map Prod.fst

instance {ε α : Type} [DecidableEq ε] [DecidableEq α] : DecidableEq (Except ε α) := fun x y =>
  match x, y with
  | .ok a, .ok b =>
    match decEq a b with
    | isTrue h => isTrue (by rw [h])
    | isFalse h => isFalse (fun hc => h (Except.ok.inj hc))
  | .error a, .error b =>
    match decEq a b with
    | isTrue h => isTrue (by rw [h])
    | isFalse h => isFalse (fun hc => h (Except.error.inj hc))
  | .ok _, .error _ => isFalse (fun hc => Except.noConfusion hc)
  | .error _, .ok _ => isFalse (fun hc => Except.noConfusion hc)

/-! ### Lemmas about the zoom schedule -/

lemma zoomExpr_one (s e inc : ℚ) : zoomExpr s e inc 1 = s := by
  simp [zoomExpr]

lemma zoomExpr_succ_succ (s e inc : ℚ) (n : ℕ) :
    zoomExpr s e inc (n + 2) = max (zoomExpr s e inc (n + 1) - inc) e := by
  simp [zoomExpr]

lemma zoomExpr_ge_end (s e inc : ℚ) (h : e ≤ s) (n : ℕ) (hn : 1 ≤ n) :
    e ≤ zoomExpr s e inc n := by
  match n, hn with
  | 1, _ => simpa [zoomExpr_one] using h
  | (m + 2), _ => rw [zoomExpr_succ_succ]; exact le_max_right _ _

lemma zoomExpr_antitone_step (s e inc : ℚ) (h : e ≤ s) (hinc : 0 ≤ inc) (n : ℕ)
    (hn : 1 ≤ n) : zoomExpr s e inc (n + 1) ≤ zoomExpr s e inc n := by
  match n, hn with
  | (m + 1), _ =>
    rw [zoomExpr_succ_succ]
    exact max_le (by linarith [sub_le_self (zoomExpr s e inc (m + 1)) hinc])
      (zoomExpr_ge_end s e inc h (m + 1) (Nat.le_add_left 1 m))

lemma zoomExpr_closed (s e inc : ℚ) (hinc : 0 ≤ inc) :
    ∀ n : ℕ, 1 ≤ n → e ≤ s - (n - 1 : ℕ) * inc →
      zoomExpr s e inc n = s - (n - 1 : ℕ) * inc
  | 1, _, _ => by simpa using zoomExpr_one s e inc
  | (m + 2), _, hbound => by
    have hm1 : ((m + 2 - 1 : ℕ) : ℚ) = ((m + 1 : ℕ) : ℚ) := by norm_num
    have hb' : e ≤ s - (m + 1 - 1 : ℕ) * inc := by
      have h1 : ((m + 1 - 1 : ℕ) : ℚ) = ((m : ℕ) : ℚ) := by norm_num
      have h2 : ((m + 2 - 1 : ℕ) : ℚ) * inc = ((m : ℕ) : ℚ) * inc + inc := by
        rw [hm1]; push_cast; ring
      rw [h1]
      nlinarith [hbound, hinc]
    have ih := zoomExpr_closed s e inc hinc (m + 1) (by omega) hb'
    rw [zoomExpr_succ_succ, ih]
    have harith : s - (m + 1 - 1 : ℕ) * inc - inc = s - (m + 2 - 1 : ℕ) * inc := by
      push_cast; ring
    rw [harith]
    exact max_eq_left (by rw [← harith] at hbound ⊢; exact hbound)

/-- C1 (corrected): with audio duration 2.0 and fps 30 the renderer
computes F = 60 frames and increment 1/400; frame 1 is pinned to the
start zoom; every later frame follows the clamped recurrence, so the
schedule is non-increasing from frame 1 on and never drops below the
end zoom; but frame 60 evaluates to end_zoom + increment (401/400),
one increment above the end zoom, not to the end zoom itself. -/
theorem c1_zoom_schedule :
    kenBurnsParams 2 30 (23/20) 1 = Except.ok (60, 1/400) ∧
    zoomExpr (23/20) 1 (1/400) 1 = 23/20 ∧
    (∀ n : ℕ, 1 ≤ n →
      zoomExpr (23/20) 1 (1/400) (n + 1) =
        max (zoomExpr (23/20) 1 (1/400) n - 1/400) 1) ∧
    (∀ n : ℕ, 1 ≤ n → 1 ≤ zoomExpr (23/20) 1 (1/400) n) ∧
    (∀ n : ℕ, 1 ≤ n →
      zoomExpr (23/20) 1 (1/400) (n + 1) ≤ zoomExpr (23/20) 1 (1/400) n) ∧
    zoomExpr (23/20) 1 (1/400) 60 = 1 + 1/400 := by
  refine ⟨by norm_num [kenBurnsParams, get_audio_duration, pyInt, pyDiv],
    zoomExpr_one _ _ _, ?_, ?_, ?_, ?_⟩
  · intro n hn
    match n, hn with
    | (m + 1), _ => exact zoomExpr_succ_succ _ _ _ m
  · intro n hn
    exact zoomExpr_ge_end _ _ _ (by norm_num) n hn
  · intro n hn
    exact zoomExpr_antitone_step _ _ _ (by norm_num) (by norm_num) n hn
  · have h := zoomExpr_closed (23/20) 1 (1/400) (by norm_num) 60 (by norm_num)
      (by norm_num)
    rw [h]; norm_num

/-- Witness for c1_zoom_schedule at frame 5. -/
theorem c1_zoom_schedule_witness :
    1 ≤ zoomExpr (23/20) 1 (1/400) 5 ∧
    zoomExpr (23/20) 1 (1/400) 6 ≤ zoomExpr (23/20) 1 (1/400) 5 ∧
    zoomExpr (23/20) 1 (1/400) 6 = max (zoomExpr (23/20) 1 (1/400) 5 - 1/400) 1 :=
  ⟨c1_zoom_schedule.2.2.2.1 5 (by norm_num),
   c1_zoom_schedule.2.2.2.2.1 5 (by norm_num),
   c1_zoom_schedule.2.2.1 5 (by norm_num)⟩

/-- C1 counterexample: at the claimed scenario the zoom at frame 60 is
401/400, which is not the end zoom 1. -/
theorem c1_frame60_counterexample :
    zoomExpr (23/20) 1 (1/400) 60 = 401/400 ∧ (401/400 : ℚ) ≠ 1 := by
  constructor
  · have h := zoomExpr_closed (23/20) 1 (1/400) (by norm_num) 60 (by norm_num)
      (by norm_num)
    rw [h]; norm_num
  · norm_num

/-- C9: when the probed duration is strictly between 0 and one frame
period, the frame count int(fps * D) is 0 and the renderer fails with a
division-by-zero error, not with the invalid-duration error. -/
theorem c9_subframe_duration_zero_division (D : ℚ) (fps : ℕ) (startZ endZ : ℚ)
    (hfps : 0 < fps) (hD : 0 < D) (hsmall : D < 1 / fps) :
    pyInt ((fps : ℚ) * D) = 0 ∧
    kenBurnsParams D fps startZ endZ = Except.error PyError.zeroDivision ∧
    PyError.zeroDivision ≠ PyError.invalidDuration := by
  have hfq : (0 : ℚ) < fps := by exact_mod_cast hfps
  have h0 : (0 : ℚ) ≤ (fps : ℚ) * D := by positivity
  have hlt : (fps : ℚ) * D < 1 := by
    have h := mul_lt_mul_of_pos_left hsmall hfq
    rwa [mul_one_div, div_self (ne_of_gt hfq)] at h
  have hfloor : ⌊(fps : ℚ) * D⌋ = 0 := Int.floor_eq_zero_iff.mpr ⟨h0, hlt⟩
  have hpyInt : pyInt ((fps : ℚ) * D) = 0 := by simp [pyInt, h0, hfloor]
  refine ⟨hpyInt, ?_, by decide⟩
  simp [kenBurnsParams, get_audio_duration, not_le.mpr hD, hpyInt, pyDiv]

/-- Witness for c9 at D = 1/60 and fps = 30. -/
theorem c9_witness :
    (0 : ℚ) < 1/60 ∧ ((1 : ℚ)/60) < 1 / ((30 : ℕ) : ℚ) ∧
    pyInt (((30 : ℕ) : ℚ) * (1/60)) = 0 ∧
    kenBurnsParams (1/60) 30 (23/20) 1 = Except.error PyError.zeroDivision := by
  have h := c9_subframe_duration_zero_division (1/60) 30 (23/20) 1
    (by norm_num) (by norm_num) (by norm_num)
  exact ⟨by norm_num, by norm_num, h.1, h.2.1⟩

/-- C7: the catalog has at least 10 names; whenever some catalog member
is outside the exclusion set the pick returns a catalog member outside
the exclusion set, and it fails with the no-transitions error exactly
when the exclusion set covers the whole catalog. -/
theorem c7_transition_pick_spec (exclude : List String) (k : ℕ) :
    10 ≤ TRANSITION_TYPES.length ∧
    ((∃ t ∈ TRANSITION_TYPES, t ∉ exclude) →
      ∃ t, get_random_transition exclude k = Except.ok t ∧
        t ∈ TRANSITION_TYPES ∧ t ∉ exclude) ∧
    ((∀ t ∈ TRANSITION_TYPES, t ∈ exclude) ↔
      get_random_transition exclude k = Except.error TransError.noTransitions) := by
  let l := TRANSITION_TYPES.filter (fun t => !exclude.contains t)
  have hdef : get_random_transition exclude k =
      if l.isEmpty then Except.error TransError.noTransitions
      else Except.ok (l.getD (k % l.length) "") := rfl
  have hmem : ∀ t, t ∈ l ↔ t ∈ TRANSITION_TYPES ∧ t ∉ exclude := by
    intro t
    simp [l, List.mem_filter]
  have hempty : l = [] ↔ ∀ t ∈ TRANSITION_TYPES, t ∈ exclude := by
    rw [List.eq_nil_iff_forall_not_mem]
    constructor
    · intro h t ht
      by_contra hx
      exact h t ((hmem t).mpr ⟨ht, hx⟩)
    · intro h t ht
      rcases (hmem t).mp ht with ⟨h1, h2⟩
      exact h2 (h t h1)
  have hok : l ≠ [] → ∃ t, get_random_transition exclude k = Except.ok t ∧
      t ∈ TRANSITION_TYPES ∧ t ∉ exclude := by
    intro hne
    have hlen : 0 < l.length := List.length_pos.mpr hne
    have hidx : k % l.length < l.length := Nat.mod_lt _ hlen
    have hget : l.getD (k % l.length) "" ∈ l := by
      rw [List.getD_eq_getElem l "" hidx]
      exact List.getElem_mem _
    refine ⟨l.getD (k % l.length) "", ?_, ((hmem _).mp hget).1, ((hmem _).mp hget).2⟩
    rw [hdef, if_neg (by simpa [List.isEmpty_iff] using hne)]
  refine ⟨by decide, fun ⟨t, ht, hnt⟩ => hok (fun h => hnt (hempty.mp h t ht)), ?_, ?_⟩
  · intro h
    rw [hdef, if_pos (by simpa [List.isEmpty_iff] using hempty.mpr h)]
  · intro h
    by_contra hx
    push_neg at hx
    rcases hx with ⟨t, ht, hnt⟩
    rcases hok (fun he => hnt (hempty.mp he t ht)) with ⟨u, hu, _⟩
    rw [h] at hu
    exact Except.noConfusion hu

/-- Witness for c7 with one excluded transition. -/
theorem c7_witness :
    ∃ t, get_random_transition ["fade"] 0 = Except.ok t ∧
      t ∈ TRANSITION_TYPES ∧ t ∉ ["fade"] :=
  (c7_transition_pick_spec ["fade"] 0).2.1 ⟨"dissolve", by decide, by decide⟩

/-! ### Audio filter graph lemmas -/

lemma flatMap_range_of_lt (m c : ℕ) (hmc : m ≤ c) :
    (List.range m).flatMap
        (fun i => ALabel.raw i :: (if i < c then [ALabel.sil i] else [])) =
      (List.range m).flatMap (fun i => [ALabel.raw i, ALabel.sil i]) := by
  induction m with
  | zero => rfl
  | succ k ih =>
    rw [List.range_succ, List.flatMap_append, List.flatMap_append,
      ih (Nat.le_of_succ_le hmc)]
    simp [if_pos (Nat.lt_of_succ_le hmc)]

lemma gapInputs_eq (n : ℕ) (hn : 1 ≤ n) :
    (List.range n).flatMap
        (fun i => ALabel.raw i :: (if i < n - 1 then [ALabel.sil i] else [])) =
      gapInterleave n := by
  match n, hn with
  | (m + 1), _ =>
    rw [List.range_succ, List.flatMap_append,
      flatMap_range_of_lt m (m + 1 - 1) (by omega)]
    simp [gapInterleave]

/-- C4: in gap mode the builder returns n-1 silence stages, each with
the gap duration, followed by one concat stage over 2n-1 segments whose
inputs interleave the raw audio inputs with the silence labels. -/
theorem c4_gap_filters (n : ℕ) (hn : 2 ≤ n) (t g : ℚ) :
    build_audio_filters n "gap" t g =
      Except.ok ((List.range (n - 1)).map
          (fun i => (⟨[], .silenceSrc g, [.sil i]⟩ : AStage))
        ++ [⟨gapInterleave n, .concat (2 * n - 1), [.finalAudio]⟩]) := by
  have hseg : n + (n - 1) = 2 * n - 1 := by omega
  rw [build_audio_filters]
  rw [if_neg (by decide), if_pos rfl]
  rw [gapInputs_eq n (by omega), hseg]

/-- Witness for c4 at n = 3. -/
theorem c4_gap_filters_witness :
    build_audio_filters 3 "gap" 1 (1/2) =
      Except.ok ((List.range (3 - 1)).map
          (fun i => (⟨[], .silenceSrc (1/2), [.sil i]⟩ : AStage))
        ++ [⟨gapInterleave 3, .concat (2 * 3 - 1), [.finalAudio]⟩]) :=
  c4_gap_filters 3 (by norm_num) 1 (1/2)

/-- C2 counterexample: at n = 2 the returned list is the single
crossfade stage followed by the trailing final_audio element, and that
later element consumes the crossfade stage's output label a0, so the
last crossfade output is not terminal in the returned list. -/
theorem c2_crossfade_terminal_counterexample :
    build_audio_filters 2 "crossfade" 1 (1/2) =
      Except.ok [⟨[.raw 0, .raw 1], .acrossfade 1, [.a 0]⟩,
                 ⟨[.a 0], .labelRef "final_audio", []⟩] ∧
    ALabel.a 0 ∈ (⟨[.a 0], .labelRef "final_audio", []⟩ : AStage).inputs ∧
    ALabel.a 0 ∈ (⟨[.raw 0, .raw 1], .acrossfade 1, [.a 0]⟩ : AStage).outputs := by
  refine ⟨by decide, by decide, by decide⟩

/-- C2 (corrected): in crossfade mode the builder returns the n-1
chained crossfade stages, each parameterized by the transition
duration, followed by one extra trailing element whose input is the
last chain label a(n-2) and whose filter text is the bare name
final_audio; no crossfade stage consumes a(n-2), only the trailing
element does. -/
theorem c2_crossfade_chain_amended (n : ℕ) (hn : 2 ≤ n) (t g : ℚ) :
    build_audio_filters n "crossfade" t g =
      Except.ok ((List.range (n - 1)).map (acfSpecStage t)
        ++ [⟨[.a ((n : ℤ) - 2)], .labelRef "final_audio", []⟩]) ∧
    ((List.range (n - 1)).map (acfSpecStage t)).length = n - 1 ∧
    (∀ j, j < n - 1 → ALabel.a ((n : ℤ) - 2) ∉ (acfSpecStage t j).inputs) := by
  refine ⟨?_, by simp, ?_⟩
  · rw [build_audio_filters]
    rw [if_neg (by decide), if_neg (by decide), if_pos rfl]
    dsimp only
    congr 2
    refine List.map_congr_left ?_
    intro i _
    by_cases hi : i = 0
    · subst hi
      simp [acfSpecStage]
    · rw [if_neg hi]
      match i, hi with
      | (m + 1), _ => simp [acfSpecStage]
  · intro j hj
    by_cases hj0 : j = 0
    · subst hj0
      simp [acfSpecStage]
    · match j, hj0 with
      | (m + 1), _ =>
        simp only [acfSpecStage, if_neg hj0, List.mem_cons, List.mem_singleton,
          List.not_mem_nil]
        push_neg
        refine ⟨fun hc => ?_, fun hc => ALabel.noConfusion hc, fun hc => hc.elim⟩
        have := ALabel.a.inj hc
        omega

/-- Witness for c2 at n = 3. -/
theorem c2_crossfade_chain_witness :
    build_audio_filters 3 "crossfade" 1 (1/2) =
      Except.ok ((List.range (3 - 1)).map (acfSpecStage 1)
        ++ [⟨[.a ((3 : ℤ) - 2)], .labelRef "final_audio", []⟩]) :=
  (c2_crossfade_chain_amended 3 (by norm_num) 1 (1/2)).1

/-! ### Video chain lemmas -/

lemma videoChainAux_length (picks : ℕ → String) (t : ℚ) :
    ∀ (rest : List ℚ) (i : ℕ) (cum : ℚ),
      (videoChainAux picks t i cum rest).length = rest.length
  | [], _, _ => rfl
  | _ :: rest, i, cum => by
    simp [videoChainAux, videoChainAux_length picks t rest (i + 1)]

lemma cumDur_cons_succ (cum d : ℚ) (rest : List ℚ) (t : ℚ) (k : ℕ) :
    cumDur (cum :: d :: rest) t (k + 1) = cumDur ((cum + d - t) :: rest) t k := by
  induction k with
  | zero => simp [cumDur]
  | succ m ih =>
    rw [cumDur, ih, cumDur, List.getD_cons_succ, List.getD_cons_succ,
      List.getD_cons_succ]

lemma chain_getD (picks : ℕ → String) (t : ℚ) :
    ∀ (rest : List ℚ) (i0 : ℕ) (cum : ℚ) (j : ℕ), j < rest.length →
      (videoChainAux picks t i0 cum rest).getD j defaultVStage =
        ⟨if i0 + j = 0 then .raw 0 else .v (i0 + j - 1), .raw (i0 + j + 1),
         picks (i0 + j), t, cumDur (cum :: rest) t j - t - 1/20, .v (i0 + j)⟩
  | [], _, _, j, hj => absurd hj (by simp)
  | d :: rest, i0, cum, 0, _ => by
    simp [videoChainAux, cumDur]
  | d :: rest, i0, cum, (k + 1), hk => by
    have hk' : k < rest.length := by simpa using hk
    have ih := chain_getD picks t rest (i0 + 1) (cum + d - t) k hk'
    have hidx : i0 + 1 + k = i0 + (k + 1) := by omega
    rw [videoChainAux, List.getD_cons_succ, ih, cumDur_cons_succ, hidx]

/-- C3: for n clips the video graph has n-1 cross-transition stages;
stage 0 consumes raw inputs 0 and 1 and each later stage i consumes the
previous stage's output label and raw input i+1; the offset at boundary
i is cumulative_duration - transition_duration - 0.05, with the
cumulative duration starting at clip 0's duration and gaining
duration[i+1] - transition_duration after each boundary. -/
theorem c3_video_chain (ds : List ℚ) (t : ℚ) (picks : ℕ → String)
    (h2 : 2 ≤ ds.length) :
    ∃ S, concatVideoGraph picks t ds = Except.ok S ∧
      S.length = ds.length - 1 ∧
      ∀ i, i < ds.length - 1 →
        S.getD i defaultVStage =
          ⟨if i = 0 then .raw 0 else .v (i - 1), .raw (i + 1), picks i, t,
           cumDur ds t i - t - 1/20, .v i⟩ := by
  match ds, h2 with
  | d0 :: d1 :: rest, _ =>
    refine ⟨videoChainAux picks t 0 d0 (d1 :: rest), ?_, ?_, ?_⟩
    · rw [concatVideoGraph, if_neg (by simp)]
    · rw [videoChainAux_length]
      simp
    · intro i hi
      have hi' : i < (d1 :: rest).length := by
        simp only [List.length_cons] at hi ⊢
        omega
      rw [chain_getD picks t (d1 :: rest) 0 d0 i hi']
      simp

/-- Witness for c3 on three clips of durations 5, 4, 6. -/
theorem c3_video_chain_witness :
    ∃ S, concatVideoGraph (fun _ => "fade") 1 [5, 4, 6] = Except.ok S ∧
      S.length = ([5, 4, 6] : List ℚ).length - 1 ∧
      ∀ i, i < ([5, 4, 6] : List ℚ).length - 1 →
        S.getD i defaultVStage =
          ⟨if i = 0 then .raw 0 else .v (i - 1), .raw (i + 1), "fade", 1,
           cumDur [5, 4, 6] 1 i - 1 - 1/20, .v i⟩ :=
  c3_video_chain [5, 4, 6] 1 (fun _ => "fade") (by norm_num)

/-! ### Sorting lemmas -/

lemma insKey_perm {α : Type} (k : α → ℕ) (x : α) (l : List α) :
    (insKey k x l).Perm (x :: l) := by
  induction l with
  | nil => exact List.Perm.refl _
  | cons y ys ih =>
    rw [insKey]
    by_cases h : k x ≤ k y
    · rw [if_pos h]
    · rw [if_neg h]
      exact (ih.cons y).trans (List.Perm.swap x y ys)

lemma sortKey_perm {α : Type} (k : α → ℕ) (l : List α) : (sortKey k l).Perm l := by
  induction l with
  | nil => exact List.Perm.refl _
  | cons x xs ih =>
    exact (insKey_perm k x (sortKey k xs)).trans (ih.cons x)

lemma insKey_pairwise {α : Type} (k : α → ℕ) (x : α) (l : List α)
    (hl : List.Pairwise (fun a b => k a ≤ k b) l) :
    List.Pairwise (fun a b => k a ≤ k b) (insKey k x l) := by
  induction l with
  | nil => simp [insKey]
  | cons y ys ih =>
    rw [insKey]
    rcases List.pairwise_cons.mp hl with ⟨hy, hys⟩
    by_cases h : k x ≤ k y
    · rw [if_pos h]
      refine List.pairwise_cons.mpr ⟨?_, hl⟩
      intro z hz
      rcases List.mem_cons.mp hz with hz | hz
      · rw [hz]; exact h
      · exact le_trans h (hy z hz)
    · rw [if_neg h]
      refine List.pairwise_cons.mpr ⟨?_, ih hys⟩
      intro z hz
      have hz' : z ∈ x :: ys := (insKey_perm k x ys).mem_iff.mp hz
      rcases List.mem_cons.mp hz' with hz' | hz'
      · rw [hz']; exact le_of_lt (lt_of_not_le h)
      · exact hy z hz'

lemma sortKey_pairwise {α : Type} (k : α → ℕ) (l : List α) :
    List.Pairwise (fun a b => k a ≤ k b) (sortKey k l) := by
  induction l with
  | nil => simp [sortKey]
  | cons x xs ih => exact insKey_pairwise k x (sortKey k xs) ih

lemma pairwise_lt_of_le_nodup {α : Type} (k : α → ℕ) (l : List α)
    (hle : List.Pairwise (fun a b => k a ≤ k b) l)
    (hnd : (l.map k).Nodup) :
    List.Pairwise (fun a b => k a < k b) l := by
  have hne : List.Pairwise (fun a b => k a ≠ k b) l := List.pairwise_map.mp hnd
  exact (hle.and hne).imp (fun h => lt_of_le_of_ne h.1 h.2)

/-- C8: the clip list handed to the concatenator is the index-sorted
list of rendered results, independent of the completion order in which
the results were collected (indices being distinct). -/
theorem c8_merge_order_independent (l1 l2 : List (String × ℕ))
    (hperm : l1.Perm l2) (hnd : (l1.map Prod.snd).Nodup) :
    collectClips l1 = collectClips l2 := by
  suffices h : sortKey (fun r : String × ℕ => r.2) l1 =
      sortKey (fun r : String × ℕ => r.2) l2 by
    rw [collectClips, collectClips, h]
  have hp : (sortKey (fun r : String × ℕ => r.2) l1).Perm
      (sortKey (fun r : String × ℕ => r.2) l2) :=
    (sortKey_perm _ l1).trans (hperm.trans (sortKey_perm _ l2).symm)
  have hnd1 : ((sortKey (fun r : String × ℕ => r.2) l1).map Prod.snd).Nodup :=
    (((sortKey_perm (fun r : String × ℕ => r.2) l1).map Prod.snd).nodup_iff).mpr hnd
  have hnd2 : ((sortKey (fun r : String × ℕ => r.2) l2).map Prod.snd).Nodup :=
    ((hp.map Prod.snd).nodup_iff).mp hnd1
  have hs1 := pairwise_lt_of_le_nodup (fun r : String × ℕ => r.2) _
    (sortKey_pairwise (fun r : String × ℕ => r.2) l1) hnd1
  have hs2 := pairwise_lt_of_le_nodup (fun r : String × ℕ => r.2) _
    (sortKey_pairwise (fun r : String × ℕ => r.2) l2) hnd2
  haveI : IsAntisymm (String × ℕ) (fun a b => a.2 < b.2) :=
    ⟨fun a b h1 h2 => (Nat.lt_asymm h1 h2).elim⟩
  exact List.eq_of_perm_of_sorted hp hs1 hs2

/-- Witness for c8 on two completion orders of the same two results. -/
theorem c8_merge_witness :
    ([("b", 2), ("a", 1)] : List (String × ℕ)).Perm [("a", 1), ("b", 2)] ∧
    (([("b", 2), ("a", 1)] : List (String × ℕ)).map Prod.snd).Nodup ∧
    collectClips [("b", 2), ("a", 1)] = collectClips [("a", 1), ("b", 2)] :=
  ⟨by decide, by decide,
   c8_merge_order_independent [("b", 2), ("a", 1)] [("a", 1), ("b", 2)]
     (by decide) (by decide)⟩

/-! ### Filename parsing lemmas -/

lemma digitChar_isDigit (d : ℕ) (h : d < 10) : (Char.ofNat (48 + d)).isDigit = true := by
  interval_cases d <;> decide

lemma digitChar_toNat (d : ℕ) (h : d < 10) : (Char.ofNat (48 + d)).toNat = 48 + d := by
  interval_cases d <;> decide

lemma natCharsGo_all_digits : ∀ (fuel n : ℕ), n ≤ fuel →
    ∀ c ∈ natCharsGo fuel n, c.isDigit = true := by
  intro fuel
  induction fuel with
  | zero =>
    intro n hn c hc
    interval_cases n
    simp [natCharsGo] at hc
  | succ f ih =>
    intro n hn c hc
    match n with
    | 0 => simp [natCharsGo] at hc
    | m + 1 =>
      rw [natCharsGo] at hc
      rcases List.mem_append.mp hc with hc | hc
      · have hdivlt : (m + 1) / 10 < m + 1 := Nat.div_lt_self (Nat.succ_pos m) (by norm_num)
        exact ih ((m + 1) / 10) (by omega) c hc
      · rw [List.mem_singleton.mp hc]
        exact digitChar_isDigit _ (Nat.mod_lt _ (by norm_num))

lemma digitsVal_append_singleton (xs : List Char) (c : Char) :
    digitsVal (xs ++ [c]) = 10 * digitsVal xs + (c.toNat - 48) := by
  simp [digitsVal, List.foldl_append]

lemma digitsVal_natCharsGo : ∀ (fuel n : ℕ), n ≤ fuel →
    digitsVal (natCharsGo fuel n) = n := by
  intro fuel
  induction fuel with
  | zero =>
    intro n hn
    interval_cases n
    rfl
  | succ f ih =>
    intro n hn
    match n with
    | 0 => rfl
    | m + 1 =>
      have hdivlt : (m + 1) / 10 < m + 1 := Nat.div_lt_self (Nat.succ_pos m) (by norm_num)
      rw [natCharsGo, digitsVal_append_singleton, ih ((m + 1) / 10) (by omega),
        digitChar_toNat _ (Nat.mod_lt _ (by norm_num))]
      have hdm := Nat.div_add_mod (m + 1) 10
      omega

lemma digitsVal_cons_zero (cs : List Char) : digitsVal ('0' :: cs) = digitsVal cs := by
  have h : (10 * 0 + ('0'.toNat - 48)) = 0 := by decide
  show List.foldl _ (10 * 0 + ('0'.toNat - 48)) cs = List.foldl _ 0 cs
  rw [h]

lemma digitsVal_replicate_zero (z : ℕ) (cs : List Char) :
    digitsVal (List.replicate z '0' ++ cs) = digitsVal cs := by
  induction z with
  | zero => simp
  | succ m ih => rw [List.replicate_succ, List.cons_append, digitsVal_cons_zero, ih]

lemma takeWhile_append_all {p : Char → Bool} :
    ∀ (xs ys : List Char), (∀ x ∈ xs, p x = true) →
      List.takeWhile p (xs ++ ys) = xs ++ List.takeWhile p ys := by
  intro xs
  induction xs with
  | nil => intro ys _; simp
  | cons x xs ih =>
    intro ys h
    have hx := h x (List.mem_cons_self x xs)
    simp only [List.cons_append, List.takeWhile_cons, hx, if_true]
    rw [ih ys (fun z hz => h z (List.mem_cons_of_mem x hz))]

lemma dropWhile_append_all {p : Char → Bool} :
    ∀ (xs ys : List Char), (∀ x ∈ xs, p x = true) →
      List.dropWhile p (xs ++ ys) = List.dropWhile p ys := by
  intro xs
  induction xs with
  | nil => intro ys _; simp
  | cons x xs ih =>
    intro ys h
    have hx := h x (List.mem_cons_self x xs)
    simp only [List.cons_append, List.dropWhile_cons, hx, if_true]
    exact ih ys (fun z hz => h z (List.mem_cons_of_mem x hz))

lemma pad3_data (i : ℕ) :
    (pad3 i).data = List.replicate (3 - (natCharsGo i i).length) '0' ++ natCharsGo i i := rfl

lemma pad3_all_digits (i : ℕ) : ∀ c ∈ (pad3 i).data, c.isDigit = true := by
  intro c hc
  rw [pad3_data] at hc
  rcases List.mem_append.mp hc with hc | hc
  · rw [List.eq_of_mem_replicate hc]
    decide
  · exact natCharsGo_all_digits i i le_rfl c hc

lemma pad3_data_ne_nil (i : ℕ) : (pad3 i).data ≠ [] := by
  have hlen : (pad3 i).data.length =
      (3 - (natCharsGo i i).length) + (natCharsGo i i).length := by
    rw [pad3_data, List.length_append, List.length_replicate]
  intro h
  rw [h] at hlen
  simp only [List.length_nil] at hlen
  omega

lemma digitsVal_pad3 (i : ℕ) : digitsVal (pad3 i).data = i := by
  rw [pad3_data, digitsVal_replicate_zero, digitsVal_natCharsGo i i le_rfl]

lemma matchIndexed_digits_ext (role : List Char) (exts : List String) (name : String)
    (ds ext : List Char)
    (heat : eatPat (role ++ ['_']) name.data = some (ds ++ '.' :: ext))
    (hds : ∀ c ∈ ds, c.isDigit = true) (hne : ds ≠ [])
    (hmem : exts.contains (String.mk (ext.map lcChar)) = true) :
    matchIndexed role exts name = some (digitsVal ds) := by
  rw [matchIndexed, heat]
  dsimp only
  rw [takeWhile_append_all ds ('.' :: ext) hds, dropWhile_append_all ds ('.' :: ext) hds]
  have ht : List.takeWhile Char.isDigit ('.' :: ext) = [] := rfl
  have hd : List.dropWhile Char.isDigit ('.' :: ext) = '.' :: ext := rfl
  rw [ht, hd, List.append_nil]
  rw [if_neg (by simp [List.isEmpty_iff, hne])]
  show (if exts.contains (String.mk (ext.map lcChar)) = true
      then some (digitsVal ds) else none) = some (digitsVal ds)
  rw [if_pos hmem]

lemma imgName_data (i : ℕ) :
    (imgName i).data = 'i' :: 'm' :: 'a' :: 'g' :: 'e' :: '_' ::
      ((pad3 i).data ++ ['.', 'j', 'p', 'g']) := by
  show ("image_" ++ pad3 i ++ ".jpg").data = _
  rw [String.data_append, String.data_append]
  rfl

lemma imageIndex_imgName (i : ℕ) : imageIndex (imgName i) = some i := by
  rw [imageIndex]
  rw [matchIndexed_digits_ext _ _ _ (pad3 i).data ['j', 'p', 'g']
    (by rw [imgName_data]; rfl) (pad3_all_digits i) (pad3_data_ne_nil i) (by decide)]
  rw [digitsVal_pad3]

lemma audName_data (i : ℕ) :
    (audName i).data = 'a' :: 'u' :: 'd' :: 'i' :: 'o' :: '_' ::
      ((pad3 i).data ++ ['.', 'm', 'p', '3']) := by
  show ("audio_" ++ pad3 i ++ ".mp3").data = _
  rw [String.data_append, String.data_append]
  rfl

lemma audioIndex_audName (i : ℕ) : audioIndex (audName i) = some i := by
  rw [audioIndex]
  rw [matchIndexed_digits_ext _ _ _ (pad3 i).data ['m', 'p', '3']
    (by rw [audName_data]; rfl) (pad3_all_digits i) (pad3_data_ne_nil i) (by decide)]
  rw [digitsVal_pad3]

/-! ### Pairing lemmas and claims C5, C6, C10 -/

lemma or_some_left {α : Type} (a : α) (o : Option α) : (some a).or o = some a := rfl

lemma getLast?_cons_or {α : Type} (a : α) (l : List α) :
    (a :: l).getLast? = (l.getLast?).or (some a) := by
  cases l with
  | nil => rfl
  | cons b l' =>
    rw [List.getLast?_cons_cons]
    have hs : (b :: l').getLast?.isSome = true := List.getLast?_isSome.mpr (by simp)
    obtain ⟨y, hy⟩ := Option.isSome_iff_exists.mp hs
    rw [hy]
    rfl

lemma mem_mapKeys (m : List (ℕ × String)) (j : ℕ) :
    j ∈ mapKeys m ↔ ∃ w, (j, w) ∈ m := by
  simp only [mapKeys, List.mem_map]
  constructor
  · rintro ⟨⟨x, y⟩, hm, he⟩
    cases he
    exact ⟨y, hm⟩
  · rintro ⟨w, hw⟩
    exact ⟨(j, w), hw, rfl⟩



lemma findVal_upsert_self (m : List (ℕ × String)) (i : ℕ) (v : String) :
    findVal (upsert m i v) i = some v := by
  induction m with
  | nil => simp [upsert, findVal]
  | cons p rest ih =>
    obtain ⟨j, w⟩ := p
    rw [upsert]
    by_cases h : j = i
    · rw [if_pos h, findVal, if_pos rfl]
    · rw [if_neg h, findVal, if_neg h, ih]

lemma findVal_upsert_ne (m : List (ℕ × String)) (j i : ℕ) (v : String) (h : j ≠ i) :
    findVal (upsert m j v) i = findVal m i := by
  induction m with
  | nil => simp [upsert, findVal, h]
  | cons p rest ih =>
    obtain ⟨a, b⟩ := p
    rw [upsert]
    by_cases ha : a = j
    · rw [if_pos ha, findVal, if_neg h, findVal, ha, if_neg h]
    · rw [if_neg ha, findVal, findVal, ih]

lemma mapKeys_cons (p : ℕ × String) (rest : List (ℕ × String)) :
    mapKeys (p :: rest) = p.1 :: mapKeys rest := rfl

lemma mapKeys_upsert (m : List (ℕ × String)) (i : ℕ) (v : String) :
    mapKeys (upsert m i v) =
      if i ∈ mapKeys m then mapKeys m else mapKeys m ++ [i] := by
  induction m with
  | nil => simp [upsert, mapKeys]
  | cons p rest ih =>
    obtain ⟨a, b⟩ := p
    rw [upsert]
    by_cases ha : a = i
    · subst ha
      rw [if_pos rfl, if_pos (by rw [mapKeys_cons]; exact List.mem_cons_self _ _)]
      rw [mapKeys_cons, mapKeys_cons]
    · rw [if_neg ha, mapKeys_cons, ih, mapKeys_cons]
      by_cases hm : i ∈ mapKeys rest
      · rw [if_pos hm, if_pos (List.mem_cons_of_mem _ hm)]
      · rw [if_neg hm, if_neg (by
          intro hc
          rcases List.mem_cons.mp hc with hc | hc
          · exact ha hc.symm
          · exact hm hc), List.cons_append]

lemma mem_mapKeys_upsert (m : List (ℕ × String)) (i : ℕ) (v : String) (j : ℕ) :
    j ∈ mapKeys (upsert m i v) ↔ j = i ∨ j ∈ mapKeys m := by
  rw [mapKeys_upsert]
  by_cases hm : i ∈ mapKeys m
  · rw [if_pos hm]
    constructor
    · exact Or.inr
    · rintro (h | h)
      · rw [h]; exact hm
      · exact h
  · rw [if_neg hm]
    simp [List.mem_append]
    tauto

lemma findVal_isSome_of_mem (m : List (ℕ × String)) (j : ℕ) (h : j ∈ mapKeys m) :
    ∃ w, findVal m j = some w := by
  induction m with
  | nil => simp [mapKeys] at h
  | cons p rest ih =>
    obtain ⟨a, b⟩ := p
    by_cases ha : a = j
    · exact ⟨b, by rw [findVal, if_pos ha]⟩
    · rw [findVal, if_neg ha]
      refine ih ?_
      rw [mapKeys_cons, List.mem_cons] at h
      rcases h with h | h
      · exact absurd h.symm ha
      · exact h

lemma findVal_eq_none_of_not_mem (m : List (ℕ × String)) (j : ℕ)
    (h : j ∉ mapKeys m) : findVal m j = none := by
  induction m with
  | nil => rfl
  | cons p rest ih =>
    obtain ⟨a, b⟩ := p
    rw [mapKeys_cons, List.mem_cons] at h
    push_neg at h
    rw [findVal, if_neg (fun hc => h.1 hc.symm)]
    exact ih h.2

lemma findVal_foldl_step (f : String → Option ℕ) :
    ∀ (ns : List String) (m : List (ℕ × String)) (i : ℕ),
      findVal (ns.foldl (fun m n => match f n with
        | some j => upsert m j n
        | none => m) m) i =
      ((ns.filter (fun n => decide (f n = some i))).getLast?).or (findVal m i) := by
  intro ns
  induction ns with
  | nil =>
    intro m i
    simp
  | cons n ns ih =>
    intro m i
    rw [List.foldl_cons, ih]
    cases hf : f n with
    | none =>
      rw [List.filter_cons_of_neg (by simp [hf])]
    | some j =>
      simp only [hf]
      by_cases hj : j = i
      · subst hj
        rw [findVal_upsert_self,
          List.filter_cons_of_pos (by simp [hf]),
          getLast?_cons_or, Option.or_assoc, or_some_left]
      · rw [findVal_upsert_ne _ _ _ _ hj,
          List.filter_cons_of_neg (by simp [hf, hj])]

lemma findVal_buildMap (f : String → Option ℕ) (ns : List String) (i : ℕ) :
    findVal (buildMap f ns) i =
      (ns.filter (fun n => decide (f n = some i))).getLast? := by
  rw [buildMap, findVal_foldl_step]
  rw [findVal, Option.or_none]

lemma mem_mapKeys_foldl_step (f : String → Option ℕ) :
    ∀ (ns : List String) (m : List (ℕ × String)) (j : ℕ),
      j ∈ mapKeys (ns.foldl (fun m n => match f n with
        | some i => upsert m i n
        | none => m) m) ↔ (∃ n ∈ ns, f n = some j) ∨ j ∈ mapKeys m := by
  intro ns
  induction ns with
  | nil =>
    intro m j
    simp
  | cons n ns ih =>
    intro m j
    rw [List.foldl_cons]
    cases hf : f n with
    | none =>
      simp only [hf]
      rw [ih]
      constructor
      · rintro (⟨x, hx, hfx⟩ | h)
        · exact Or.inl ⟨x, List.mem_cons_of_mem n hx, hfx⟩
        · exact Or.inr h
      · rintro (⟨x, hx, hfx⟩ | h)
        · rcases List.mem_cons.mp hx with hx | hx
          · rw [hx, hf] at hfx
            exact absurd hfx (by simp)
          · exact Or.inl ⟨x, hx, hfx⟩
        · exact Or.inr h
    | some i =>
      simp only [hf]
      rw [ih]
      constructor
      · rintro (⟨x, hx, hfx⟩ | h)
        · exact Or.inl ⟨x, List.mem_cons_of_mem n hx, hfx⟩
        · rcases (mem_mapKeys_upsert m i n j).mp h with h | h
          · exact Or.inl ⟨n, List.mem_cons_self n ns, by rw [hf, h]⟩
          · exact Or.inr h
      · rintro (⟨x, hx, hfx⟩ | h)
        · rcases List.mem_cons.mp hx with hx | hx
          · rw [hx, hf] at hfx
            exact Or.inr ((mem_mapKeys_upsert m i n j).mpr
              (Or.inl (Option.some.inj hfx).symm))
          · exact Or.inl ⟨x, hx, hfx⟩
        · exact Or.inr ((mem_mapKeys_upsert m i n j).mpr (Or.inr h))

lemma mem_mapKeys_buildMap (f : String → Option ℕ) (ns : List String) (j : ℕ) :
    j ∈ mapKeys (buildMap f ns) ↔ ∃ n ∈ ns, f n = some j := by
  rw [buildMap, mem_mapKeys_foldl_step]
  simp [mapKeys]



lemma sorted_nodup_ext : ∀ (l1 l2 : List ℕ), List.Pairwise (· < ·) l1 →
    List.Pairwise (· < ·) l2 → (∀ x, x ∈ l1 ↔ x ∈ l2) → l1 = l2
  | [], [], _, _, _ => rfl
  | [], b :: t2, _, _, hm =>
    absurd ((hm b).mpr (List.mem_cons_self b t2)) (List.not_mem_nil b)
  | a :: t1, [], _, _, hm =>
    absurd ((hm a).mp (List.mem_cons_self a t1)) (List.not_mem_nil a)
  | a :: t1, b :: t2, h1, h2, hm => by
    rcases List.pairwise_cons.mp h1 with ⟨ha, h1'⟩
    rcases List.pairwise_cons.mp h2 with ⟨hb, h2'⟩
    have hab : a = b := by
      have haIn : a ∈ b :: t2 := (hm a).mp (List.mem_cons_self a t1)
      have hbIn : b ∈ a :: t1 := (hm b).mpr (List.mem_cons_self b t2)
      rcases List.mem_cons.mp haIn with h | h
      · exact h
      · have h5 := hb a h
        rcases List.mem_cons.mp hbIn with h' | h'
        · exact h'.symm
        · have h6 := ha b h'
          omega
    subst hab
    have hm' : ∀ x, x ∈ t1 ↔ x ∈ t2 := by
      intro x
      constructor
      · intro hx
        rcases List.mem_cons.mp ((hm x).mp (List.mem_cons_of_mem a hx)) with h | h
        · have := ha x hx
          omega
        · exact h
      · intro hx
        rcases List.mem_cons.mp ((hm x).mpr (List.mem_cons_of_mem a hx)) with h | h
        · have := hb x hx
          omega
        · exact h
    rw [sorted_nodup_ext t1 t2 h1' h2' hm']

lemma insKey_of_le {α : Type} (k : α → ℕ) (x : α) (l : List α)
    (h : ∀ y ∈ l, k x ≤ k y) : insKey k x l = x :: l := by
  cases l with
  | nil => rfl
  | cons y ys => rw [insKey, if_pos (h y (List.mem_cons_self y ys))]

lemma sortKey_eq_self {α : Type} (k : α → ℕ) (l : List α)
    (h : List.Pairwise (fun a b => k a ≤ k b) l) : sortKey k l = l := by
  induction l with
  | nil => rfl
  | cons x xs ih =>
    rcases List.pairwise_cons.mp h with ⟨hx, h'⟩
    rw [sortKey, ih h', insKey_of_le k x xs hx]

lemma pairLoop_eq (imgs auds : List (ℕ × String)) :
    ∀ idxs : List ℕ,
      pairLoop imgs auds idxs =
        (idxs.filterMap (fun i => match findVal imgs i, findVal auds i with
          | some im, some au => some (im, au, i)
          | _, _ => none),
         idxs.filterMap (fun i => match findVal imgs i, findVal auds i with
          | some _, some _ => none
          | some _, none => some ("audio_" ++ pad3 i)
          | none, _ => some ("image_" ++ pad3 i))) := by
  intro idxs
  induction idxs with
  | nil => rfl
  | cons i rest ih =>
    rw [pairLoop, ih]
    cases h1 : findVal imgs i with
    | none =>
      cases h2 : findVal auds i with
      | none => simp [List.filterMap_cons, h1, h2]
      | some au => simp [List.filterMap_cons, h1, h2]
    | some im =>
      cases h2 : findVal auds i with
      | none => simp [List.filterMap_cons, h1, h2]
      | some au => simp [List.filterMap_cons, h1, h2]



lemma discover_eq_ok (imgNames audNames : List String)
    (hsame : ∀ j, j ∈ mapKeys (buildMap imageIndex imgNames) ↔
      j ∈ mapKeys (buildMap audioIndex audNames))
    (hne : ∃ j, j ∈ mapKeys (buildMap imageIndex imgNames)) :
    discover_and_pair_files imgNames audNames = Except.ok
      ((sortKey id ((mapKeys (buildMap imageIndex imgNames) ++
          mapKeys (buildMap audioIndex audNames)).dedup)).filterMap
        (fun i => match findVal (buildMap imageIndex imgNames) i,
            findVal (buildMap audioIndex audNames) i with
          | some im, some au => some (im, au, i)
          | _, _ => none)) := by
  obtain ⟨j0, hj0⟩ := hne
  have hUmem : ∀ j, j ∈ sortKey id ((mapKeys (buildMap imageIndex imgNames) ++
      mapKeys (buildMap audioIndex audNames)).dedup) ↔
      j ∈ mapKeys (buildMap imageIndex imgNames) ∨
      j ∈ mapKeys (buildMap audioIndex audNames) := by
    intro j
    rw [(sortKey_perm id _).mem_iff, List.mem_dedup, List.mem_append]
  have hUne : sortKey id ((mapKeys (buildMap imageIndex imgNames) ++
      mapKeys (buildMap audioIndex audNames)).dedup) ≠ [] := by
    intro h
    have hmem := (hUmem j0).mpr (Or.inl hj0)
    rw [h] at hmem
    exact List.not_mem_nil j0 hmem
  have hmiss : (sortKey id ((mapKeys (buildMap imageIndex imgNames) ++
      mapKeys (buildMap audioIndex audNames)).dedup)).filterMap
        (fun i => match findVal (buildMap imageIndex imgNames) i,
            findVal (buildMap audioIndex audNames) i with
          | some _, some _ => none
          | some _, none => some ("audio_" ++ pad3 i)
          | none, _ => some ("image_" ++ pad3 i)) = [] := by
    rw [List.filterMap_eq_nil_iff]
    intro i hi
    have hiboth : i ∈ mapKeys (buildMap imageIndex imgNames) ∧
        i ∈ mapKeys (buildMap audioIndex audNames) := by
      rcases (hUmem i).mp hi with h | h
      · exact ⟨h, (hsame i).mp h⟩
      · exact ⟨(hsame i).mpr h, h⟩
    obtain ⟨im, him⟩ := findVal_isSome_of_mem _ i hiboth.1
    obtain ⟨au, hau⟩ := findVal_isSome_of_mem _ i hiboth.2
    rw [him, hau]
  have hUlt : List.Pairwise (· < ·)
      (sortKey id ((mapKeys (buildMap imageIndex imgNames) ++
        mapKeys (buildMap audioIndex audNames)).dedup)) := by
    have hnd := ((sortKey_perm id ((mapKeys (buildMap imageIndex imgNames) ++
      mapKeys (buildMap audioIndex audNames)).dedup)).nodup_iff).mpr
      (List.nodup_dedup _)
    have hle := sortKey_pairwise id ((mapKeys (buildMap imageIndex imgNames) ++
      mapKeys (buildMap audioIndex audNames)).dedup)
    have hmapnd : ((sortKey id ((mapKeys (buildMap imageIndex imgNames) ++
        mapKeys (buildMap audioIndex audNames)).dedup)).map id).Nodup := by
      rw [List.map_id]
      exact hnd
    exact pairwise_lt_of_le_nodup id _ hle hmapnd
  have hpairs : List.Pairwise (fun p q : String × String × ℕ => p.2.2 ≤ q.2.2)
      ((sortKey id ((mapKeys (buildMap imageIndex imgNames) ++
          mapKeys (buildMap audioIndex audNames)).dedup)).filterMap
        (fun i => match findVal (buildMap imageIndex imgNames) i,
            findVal (buildMap audioIndex audNames) i with
          | some im, some au => some (im, au, i)
          | _, _ => none)) := by
    rw [List.pairwise_filterMap]
    refine hUlt.imp ?_
    intro a a' hlt b hb b' hb'
    have hkey : ∀ (c : ℕ) (p : String × String × ℕ),
        (match findVal (buildMap imageIndex imgNames) c,
            findVal (buildMap audioIndex audNames) c with
          | some im, some au => some (im, au, c)
          | _, _ => none) = some p → p.2.2 = c := by
      intro c p hp
      cases hc1 : findVal (buildMap imageIndex imgNames) c with
      | none => rw [hc1] at hp; simp at hp
      | some im =>
        cases hc2 : findVal (buildMap audioIndex audNames) c with
        | none => rw [hc1, hc2] at hp; simp at hp
        | some au =>
          rw [hc1, hc2] at hp
          cases hp
          rfl
    rw [hkey a b hb, hkey a' b' hb']
    omega
  rw [discover_and_pair_files]
  dsimp only
  rw [if_neg (by simp [List.isEmpty_iff, hUne]), pairLoop_eq]
  dsimp only
  rw [hmiss]
  rw [if_pos (show ([] : List String).isEmpty = true from rfl)]
  exact congrArg Except.ok (sortKey_eq_self _ _ hpairs)



lemma range_filter_eq (K i : ℕ) (h : i < K) :
    (List.range K).filter (fun m => decide (m = i)) = [i] := by
  induction K with
  | zero => omega
  | succ n ih =>
    rw [List.range_succ, List.filter_append]
    by_cases hi : i < n
    · rw [ih hi]
      have hlast : List.filter (fun m => decide (m = i)) [n] = [] := by
        rw [List.filter_cons_of_neg (by simp; omega)]
        rfl
      rw [hlast, List.append_nil]
    · have hin : i = n := by omega
      subst hin
      have h1 : (List.range i).filter (fun m => decide (m = i)) = [] := by
        rw [List.filter_eq_nil_iff]
        intro a ha
        simp [List.mem_range] at ha
        simp
        omega
      rw [h1, List.nil_append, List.filter_cons_of_pos (by simp)]
      rfl

lemma sortKey_id_dedup_lt (l : List ℕ) :
    List.Pairwise (· < ·) (sortKey id l.dedup) := by
  have hnd := ((sortKey_perm id l.dedup).nodup_iff).mpr (List.nodup_dedup l)
  have hle := sortKey_pairwise id l.dedup
  have hmapnd : ((sortKey id l.dedup).map id).Nodup := by
    rw [List.map_id]
    exact hnd
  exact pairwise_lt_of_le_nodup id _ hle hmapnd

/-- C5: for fully matched directories image_001..K / audio_001..K the
pairing returns exactly K pairs sorted ascending by index, each pair
carrying the image and audio file of the same numeric index. -/
theorem c5_full_match (K : ℕ) (hK : 1 ≤ K) :
    discover_and_pair_files ((List.range K).map (fun i => imgName (i + 1)))
        ((List.range K).map (fun i => audName (i + 1))) =
      Except.ok ((List.range K).map
        (fun i => (imgName (i + 1), audName (i + 1), i + 1))) := by
  have hkeysI : ∀ j, j ∈ mapKeys (buildMap imageIndex
      ((List.range K).map (fun i => imgName (i + 1)))) ↔ ∃ i, i < K ∧ j = i + 1 := by
    intro j
    rw [mem_mapKeys_buildMap]
    constructor
    · rintro ⟨n, hn, hparse⟩
      rcases List.mem_map.mp hn with ⟨i, hi, rfl⟩
      rw [imageIndex_imgName] at hparse
      exact ⟨i, List.mem_range.mp hi, (Option.some.inj hparse).symm⟩
    · rintro ⟨i, hi, rfl⟩
      exact ⟨imgName (i + 1), List.mem_map_of_mem _ (List.mem_range.mpr hi),
        imageIndex_imgName (i + 1)⟩
  have hkeysA : ∀ j, j ∈ mapKeys (buildMap audioIndex
      ((List.range K).map (fun i => audName (i + 1)))) ↔ ∃ i, i < K ∧ j = i + 1 := by
    intro j
    rw [mem_mapKeys_buildMap]
    constructor
    · rintro ⟨n, hn, hparse⟩
      rcases List.mem_map.mp hn with ⟨i, hi, rfl⟩
      rw [audioIndex_audName] at hparse
      exact ⟨i, List.mem_range.mp hi, (Option.some.inj hparse).symm⟩
    · rintro ⟨i, hi, rfl⟩
      exact ⟨audName (i + 1), List.mem_map_of_mem _ (List.mem_range.mpr hi),
        audioIndex_audName (i + 1)⟩
  have hfindI : ∀ i, i < K → findVal (buildMap imageIndex
      ((List.range K).map (fun i => imgName (i + 1)))) (i + 1) =
      some (imgName (i + 1)) := by
    intro i hi
    rw [findVal_buildMap, List.filter_map]
    have hcong : (List.range K).filter
        ((fun n => decide (imageIndex n = some (i + 1))) ∘ (fun m => imgName (m + 1))) =
        (List.range K).filter (fun m => decide (m = i)) := by
      refine List.filter_congr ?_
      intro m _
      simp [Function.comp, imageIndex_imgName]
    rw [hcong, range_filter_eq K i hi]
    rfl
  have hfindA : ∀ i, i < K → findVal (buildMap audioIndex
      ((List.range K).map (fun i => audName (i + 1)))) (i + 1) =
      some (audName (i + 1)) := by
    intro i hi
    rw [findVal_buildMap, List.filter_map]
    have hcong : (List.range K).filter
        ((fun n => decide (audioIndex n = some (i + 1))) ∘ (fun m => audName (m + 1))) =
        (List.range K).filter (fun m => decide (m = i)) := by
      refine List.filter_congr ?_
      intro m _
      simp [Function.comp, audioIndex_audName]
    rw [hcong, range_filter_eq K i hi]
    rfl
  rw [discover_eq_ok _ _ (fun j => (hkeysI j).trans (hkeysA j).symm)
    ⟨1, (hkeysI 1).mpr ⟨0, by omega, rfl⟩⟩]
  have hU : sortKey id ((mapKeys (buildMap imageIndex
      ((List.range K).map (fun i => imgName (i + 1)))) ++
      mapKeys (buildMap audioIndex
      ((List.range K).map (fun i => audName (i + 1))))).dedup) =
      (List.range K).map (fun i => i + 1) := by
    refine sorted_nodup_ext _ _ (sortKey_id_dedup_lt _) ?_ ?_
    · rw [List.pairwise_map]
      exact (List.pairwise_lt_range K).imp (by omega)
    · intro x
      rw [(sortKey_perm id _).mem_iff, List.mem_dedup, List.mem_append]
      constructor
      · rintro (h | h)
        · rcases (hkeysI x).mp h with ⟨i, hi, rfl⟩
          exact List.mem_map_of_mem _ (List.mem_range.mpr hi)
        · rcases (hkeysA x).mp h with ⟨i, hi, rfl⟩
          exact List.mem_map_of_mem _ (List.mem_range.mpr hi)
      · intro h
        rcases List.mem_map.mp h with ⟨i, hi, rfl⟩
        exact Or.inl ((hkeysI _).mpr ⟨i, List.mem_range.mp hi, rfl⟩)
  rw [hU, List.filterMap_map]
  have hout : ∀ i ∈ List.range K,
      ((fun i => match findVal (buildMap imageIndex
          ((List.range K).map (fun i => imgName (i + 1)))) i,
          findVal (buildMap audioIndex
          ((List.range K).map (fun i => audName (i + 1)))) i with
        | some im, some au => some (im, au, i)
        | _, _ => none) ∘ (fun i => i + 1)) i =
      some (imgName (i + 1), audName (i + 1), i + 1) := by
    intro i hi
    have hi' := List.mem_range.mp hi
    show (match findVal (buildMap imageIndex
        ((List.range K).map (fun i => imgName (i + 1)))) (i + 1),
        findVal (buildMap audioIndex
        ((List.range K).map (fun i => audName (i + 1)))) (i + 1) with
      | some im, some au => some (im, au, i + 1)
      | _, _ => none) = some (imgName (i + 1), audName (i + 1), i + 1)
    rw [hfindI i hi', hfindA i hi']
  rw [List.filterMap_congr hout]
  exact congrArg Except.ok (congrFun (List.filterMap_eq_map
    (fun i => (imgName (i + 1), audName (i + 1), i + 1))) (List.range K))



/-- C6: whenever some index is present on exactly one side, pairing
fails with the incomplete-pairs error whose list names every one-sided
index with the expected role-prefixed counterpart, and no pair list is
returned. -/
theorem c6_incomplete_pairs (imgNames audNames : List String) (i : ℕ)
    (hone : (i ∈ mapKeys (buildMap imageIndex imgNames) ∧
        i ∉ mapKeys (buildMap audioIndex audNames)) ∨
      (i ∉ mapKeys (buildMap imageIndex imgNames) ∧
        i ∈ mapKeys (buildMap audioIndex audNames))) :
    ∃ M, discover_and_pair_files imgNames audNames =
        Except.error (PairError.incomplete M) ∧
      M = (sortKey id ((mapKeys (buildMap imageIndex imgNames) ++
          mapKeys (buildMap audioIndex audNames)).dedup)).filterMap
        (fun j => if j ∈ mapKeys (buildMap imageIndex imgNames) then
            (if j ∈ mapKeys (buildMap audioIndex audNames) then none
             else some ("audio_" ++ pad3 j))
          else some ("image_" ++ pad3 j)) ∧
      M ≠ [] ∧
      ∀ ps, discover_and_pair_files imgNames audNames ≠ Except.ok ps := by
  have hiU : i ∈ sortKey id ((mapKeys (buildMap imageIndex imgNames) ++
      mapKeys (buildMap audioIndex audNames)).dedup) := by
    rw [(sortKey_perm id _).mem_iff, List.mem_dedup, List.mem_append]
    rcases hone with ⟨h, _⟩ | ⟨_, h⟩
    · exact Or.inl h
    · exact Or.inr h
  have hUne : sortKey id ((mapKeys (buildMap imageIndex imgNames) ++
      mapKeys (buildMap audioIndex audNames)).dedup) ≠ [] :=
    fun h => List.not_mem_nil i (h ▸ hiU)
  have hmissEq : (sortKey id ((mapKeys (buildMap imageIndex imgNames) ++
      mapKeys (buildMap audioIndex audNames)).dedup)).filterMap
        (fun j => match findVal (buildMap imageIndex imgNames) j,
            findVal (buildMap audioIndex audNames) j with
          | some _, some _ => none
          | some _, none => some ("audio_" ++ pad3 j)
          | none, _ => some ("image_" ++ pad3 j)) =
      (sortKey id ((mapKeys (buildMap imageIndex imgNames) ++
          mapKeys (buildMap audioIndex audNames)).dedup)).filterMap
        (fun j => if j ∈ mapKeys (buildMap imageIndex imgNames) then
            (if j ∈ mapKeys (buildMap audioIndex audNames) then none
             else some ("audio_" ++ pad3 j))
          else some ("image_" ++ pad3 j)) := by
    refine List.filterMap_congr ?_
    intro j _
    by_cases hI : j ∈ mapKeys (buildMap imageIndex imgNames)
    · obtain ⟨w, hw⟩ := findVal_isSome_of_mem _ j hI
      by_cases hA : j ∈ mapKeys (buildMap audioIndex audNames)
      · obtain ⟨w2, hw2⟩ := findVal_isSome_of_mem _ j hA
        rw [hw, hw2, if_pos hI, if_pos hA]
      · rw [hw, findVal_eq_none_of_not_mem _ j hA, if_pos hI, if_neg hA]
    · rw [findVal_eq_none_of_not_mem _ j hI, if_neg hI]
  have hMne : (sortKey id ((mapKeys (buildMap imageIndex imgNames) ++
      mapKeys (buildMap audioIndex audNames)).dedup)).filterMap
        (fun j => match findVal (buildMap imageIndex imgNames) j,
            findVal (buildMap audioIndex audNames) j with
          | some _, some _ => none
          | some _, none => some ("audio_" ++ pad3 j)
          | none, _ => some ("image_" ++ pad3 j)) ≠ [] := by
    rw [hmissEq]
    intro h
    have hnone := List.filterMap_eq_nil_iff.mp h i hiU
    rcases hone with ⟨hI, hA⟩ | ⟨hI, hA⟩
    · rw [if_pos hI, if_neg hA] at hnone
      exact Option.noConfusion hnone
    · rw [if_neg hI] at hnone
      exact Option.noConfusion hnone
  have herr : discover_and_pair_files imgNames audNames =
      Except.error (PairError.incomplete
        ((sortKey id ((mapKeys (buildMap imageIndex imgNames) ++
          mapKeys (buildMap audioIndex audNames)).dedup)).filterMap
          (fun j => match findVal (buildMap imageIndex imgNames) j,
              findVal (buildMap audioIndex audNames) j with
            | some _, some _ => none
            | some _, none => some ("audio_" ++ pad3 j)
            | none, _ => some ("image_" ++ pad3 j)))) := by
    rw [discover_and_pair_files]
    dsimp only
    rw [if_neg (by simp [List.isEmpty_iff, hUne]), pairLoop_eq]
    dsimp only
    rw [if_neg (by simpa [List.isEmpty_iff] using hMne)]
  refine ⟨_, herr, hmissEq, hMne, ?_⟩
  intro ps hc
  rw [herr] at hc
  exact Except.noConfusion hc



lemma pairFn_key (imgs auds : List (ℕ × String)) (j : ℕ) (p : String × String × ℕ)
    (hp : (match findVal imgs j, findVal auds j with
      | some im, some au => some (im, au, j)
      | _, _ => none) = some p) : p.2.2 = j := by
  cases hc1 : findVal imgs j with
  | none => rw [hc1] at hp; simp at hp
  | some im =>
    cases hc2 : findVal auds j with
    | none => rw [hc1, hc2] at hp; simp at hp
    | some au =>
      rw [hc1, hc2] at hp
      cases hp
      rfl

lemma filter_key_filterMap (U : List ℕ) (g : ℕ → Option (String × String × ℕ))
    (hg : ∀ j p, g j = some p → p.2.2 = j) (i : ℕ) :
    (U.filterMap g).filter (fun p => decide (p.2.2 = i)) =
      (U.filter (fun j => decide (j = i))).filterMap g := by
  induction U with
  | nil => rfl
  | cons u rest ih =>
    rw [List.filterMap_cons]
    cases hu : g u with
    | none =>
      by_cases hui : u = i
      · rw [List.filter_cons_of_pos (by simp [hui]), List.filterMap_cons]
        simp only [hu]
        exact ih
      · rw [List.filter_cons_of_neg (by simp [hui])]
        exact ih
    | some p =>
      by_cases hui : u = i
      · rw [List.filter_cons_of_pos (by simp [hg u p hu, hui]),
          List.filter_cons_of_pos (by simp [hui]), List.filterMap_cons]
        simp only [hu]
        rw [ih]
      · rw [List.filter_cons_of_neg (by simp [hg u p hu, hui]),
          List.filter_cons_of_neg (by simp [hui]), ih]

lemma nodup_filter_eq_single (l : List ℕ) (i : ℕ) (hnd : l.Nodup) (hi : i ∈ l) :
    l.filter (fun j => decide (j = i)) = [i] := by
  induction l with
  | nil => cases hi
  | cons a rest ih =>
    rcases List.mem_cons.mp hi with h | h
    · subst h
      rw [List.filter_cons_of_pos (by simp)]
      have hrest : rest.filter (fun j => decide (j = i)) = [] := by
        rw [List.filter_eq_nil_iff]
        intro b hb
        simp only [decide_eq_true_eq]
        intro hba
        rw [hba] at hb
        exact (List.nodup_cons.mp hnd).1 hb
      rw [hrest]
    · have hne : a ≠ i := by
        intro hc
        rw [hc] at hnd
        exact (List.nodup_cons.mp hnd).1 h
      rw [List.filter_cons_of_neg (by simp [hne]),
        ih (List.nodup_cons.mp hnd).2 h]

/-- C10: a duplicate numeric index inside the image directory raises no
error; the directory map keeps the file encountered last for that index
and exactly one pair is produced for it, silently ignoring the earlier
file. -/
theorem c10_duplicate_index_last_wins (pre post audNames : List String)
    (n1 n2 : String) (i : ℕ)
    (h1 : imageIndex n1 = some i) (h2 : imageIndex n2 = some i)
    (hpost : ∀ m ∈ post, imageIndex m ≠ some i)
    (hsame : ∀ j, j ∈ mapKeys (buildMap imageIndex (pre ++ n1 :: n2 :: post)) ↔
      j ∈ mapKeys (buildMap audioIndex audNames)) :
    ∃ pairs, discover_and_pair_files (pre ++ n1 :: n2 :: post) audNames =
        Except.ok pairs ∧
      (pairs.filter (fun p => decide (p.2.2 = i))).map (fun p => p.1) = [n2] := by
  have hiK : i ∈ mapKeys (buildMap imageIndex (pre ++ n1 :: n2 :: post)) :=
    (mem_mapKeys_buildMap _ _ _).mpr ⟨n2, by simp, h2⟩
  have hiU : i ∈ sortKey id ((mapKeys (buildMap imageIndex (pre ++ n1 :: n2 :: post)) ++
      mapKeys (buildMap audioIndex audNames)).dedup) := by
    rw [(sortKey_perm id _).mem_iff, List.mem_dedup, List.mem_append]
    exact Or.inl hiK
  have hUnd : (sortKey id ((mapKeys (buildMap imageIndex (pre ++ n1 :: n2 :: post)) ++
      mapKeys (buildMap audioIndex audNames)).dedup)).Nodup :=
    ((sortKey_perm id _).nodup_iff).mpr (List.nodup_dedup _)
  have hfind2 : findVal (buildMap imageIndex (pre ++ n1 :: n2 :: post)) i = some n2 := by
    rw [findVal_buildMap, List.filter_append]
    have hpostf : post.filter (fun n => decide (imageIndex n = some i)) = [] := by
      rw [List.filter_eq_nil_iff]
      intro a ha
      simp [hpost a ha]
    rw [List.filter_cons_of_pos (by simp [h1]), List.filter_cons_of_pos (by simp [h2]),
      hpostf, List.getLast?_append]
    rfl
  obtain ⟨au, hau⟩ := findVal_isSome_of_mem _ i ((hsame i).mp hiK)
  refine ⟨_, discover_eq_ok _ _ hsame ⟨i, hiK⟩, ?_⟩
  rw [filter_key_filterMap _ _ (pairFn_key _ _) i,
    nodup_filter_eq_single _ i hUnd hiU, List.filterMap_cons]
  simp only [hfind2, hau]
  rfl

/-- Witness for c5 at K = 3. -/
theorem c5_full_match_witness :
    discover_and_pair_files ((List.range 3).map (fun i => imgName (i + 1)))
        ((List.range 3).map (fun i => audName (i + 1))) =
      Except.ok ((List.range 3).map
        (fun i => (imgName (i + 1), audName (i + 1), i + 1))) :=
  c5_full_match 3 (by norm_num)

/-- Witness for c6: image 002 has no audio counterpart. -/
theorem c6_incomplete_pairs_witness :
    ∃ M, discover_and_pair_files ["image_001.jpg", "image_002.jpg"]
        ["audio_001.mp3"] = Except.error (PairError.incomplete M) ∧
      M = (sortKey id ((mapKeys (buildMap imageIndex
            ["image_001.jpg", "image_002.jpg"]) ++
          mapKeys (buildMap audioIndex ["audio_001.mp3"])).dedup)).filterMap
        (fun j => if j ∈ mapKeys (buildMap imageIndex
            ["image_001.jpg", "image_002.jpg"]) then
            (if j ∈ mapKeys (buildMap audioIndex ["audio_001.mp3"]) then none
             else some ("audio_" ++ pad3 j))
          else some ("image_" ++ pad3 j)) ∧
      M ≠ [] ∧
      ∀ ps, discover_and_pair_files ["image_001.jpg", "image_002.jpg"]
        ["audio_001.mp3"] ≠ Except.ok ps :=
  c6_incomplete_pairs ["image_001.jpg", "image_002.jpg"] ["audio_001.mp3"] 2
    (Or.inl ⟨by decide, by decide⟩)

/-- Witness for c10: image_001.jpg and image_001.png share index 1 and
the later file wins. -/
theorem c10_duplicate_index_witness :
    ∃ pairs, discover_and_pair_files
        (([] : List String) ++ "image_001.jpg" :: "image_001.png" :: [])
        ["audio_001.mp3"] = Except.ok pairs ∧
      (pairs.filter (fun p => decide (p.2.2 = 1))).map (fun p => p.1) =
        ["image_001.png"] :=
  c10_duplicate_index_last_wins [] [] ["audio_001.mp3"]
    "image_001.jpg" "image_001.png" 1 (by decide) (by decide)
    (fun m hm => absurd hm (List.not_mem_nil m))
    (by
      intro j
      rw [show mapKeys (buildMap imageIndex
          (([] : List String) ++ "image_001.jpg" :: "image_001.png" :: [])) = [1]
          from by decide,
        show mapKeys (buildMap audioIndex ["audio_001.mp3"]) = [1] from by decide])

end VidAuto
